import Mathlib

/-!
Verification of the mbed ticker event queue (`source/ticker_api.c`).

The development shallowly embeds the C file:

* `ticker_timeIsInPeriod` is the wraparound ordering predicate
  (lines 141-163), translated literally on `Nat` (the C compares raw
  fixed-width unsigned values with `>=`, `<`, `>`).
* The pending-event chain is modelled as a `List` of event records for the
  behavioural claims about `ticker_insert_event` and `ticker_irq_handler`,
  and as an explicit pointer heap (`Nat`-addressed nodes) for the
  frame-effect claims about unlinking and `ticker_remove_event`.
* The hardware adapter calls (`set_interrupt`, `disable_interrupt`) are
  recorded as explicit output values.

The build-time constants `TICKER_TIME_MASK`, `TICKER_FUTURE_TOLERANCE`,
`TICKER_PAST_TOLERANCE` and `TICKER_EXPECT_ISR_DELAY` come from
`ticker_api.h`, which is not among the sources; they are modelled from the
spec as an arbitrary configuration record (see `tickerConfig`).
-/

namespace TickerApi

/-- An event record (`ticker_event_t`): a timestamp and a caller-defined id.
The `next` link is represented by list structure in the list model. -/
structure ticker_event where
  timestamp : Nat
  id : Nat
deriving DecidableEq, Repr

/-- `ticker_timeIsInPeriod(start, time, end)` from `ticker_api.c` lines
141-163, translated literally: timestamps are unsigned values compared
raw, so `Nat` comparisons.  The C condition is
`(time >= start && (time < end || start >= end)) ||
 (time < start && end < start && end > time)`. -/
def ticker_timeIsInPeriod (start time endT : Nat) : Bool :=
  (decide (start ≤ time) && (decide (time < endT) || decide (endT ≤ start))) ||
  (decide (time < start) && decide (endT < start) && decide (time < endT))

/-- The spec's circular "age" of a timestamp `t` relative to origin `now`
in a counter space of modulus `M`: `(t - now) mod M` computed on `Nat`. -/
def age (M now t : Nat) : Nat :=
  (t + M - now) % M

/-- Modelled from the spec: the build-time configuration constants of
`ticker_api.h`, which is not among the sources.  `M` is the counter
modulus (`TICKER_TIME_MASK + 1 = 2^W` for counter width `W`);
`futureTolerance` is `TICKER_FUTURE_TOLERANCE`; `pastTolerance` is
`TICKER_PAST_TOLERANCE`; `isrDelay` is `TICKER_EXPECT_ISR_DELAY`.  The
spec (§6) fixes them at build time but gives no values, so theorems
quantify over them. -/
structure tickerConfig where
  M : Nat
  futureTolerance : Nat
  pastTolerance : Nat
  isrDelay : Nat
deriving DecidableEq, Repr

/-- The adjusted reference time of `ticker_insert_event` (lines 70-75):
`actCnt = read() - TICKER_EXPECT_ISR_DELAY` in modular unsigned
arithmetic. -/
def adjustedRef (c : tickerConfig) (ticksNow : Nat) : Nat :=
  (ticksNow + c.M - c.isrDelay % c.M) % c.M

/-- The due test of `ticker_irq_handler` (lines 40-44):
`diff = (head->timestamp - ticksNow) & TICKER_TIME_MASK`, due when
`diff <= TICKER_FUTURE_TOLERANCE || diff > TICKER_PAST_TOLERANCE`. -/
def eventIsDue (c : tickerConfig) (ticksNow ts : Nat) : Bool :=
  decide ((ts + c.M - ticksNow) % c.M ≤ c.futureTolerance) ||
  decide (c.pastTolerance < (ts + c.M - ticksNow) % c.M)

/-- The scan-and-link body of `ticker_insert_event` (lines 85-103) on the
list model, after the reference time has been adjusted and the timestamp
and id fields of `obj` populated.  Walks the chain until it finds the
first element the new event comes before (`ticker_timeIsInPeriod`), links
`obj` there, and reports the armed timestamp: `some timestamp` exactly
when the new event became the head (line 98 `set_interrupt(timestamp)`),
`none` otherwise. -/
def ticker_insert_event (act : Nat) (obj : ticker_event) :
    List ticker_event → List ticker_event × Option Nat
  | [] => ([obj], some obj.timestamp)
  | p :: rest =>
    if ticker_timeIsInPeriod act obj.timestamp p.timestamp then
      (obj :: p :: rest, some obj.timestamp)
    else
      (p :: (ticker_insert_event act obj rest).1, Option.none)

/-- Full `ticker_insert_event` (lines 66-106): reads the counter, adjusts
it by the expected ISR delay, masks the timestamp
(`timestamp &= TICKER_TIME_MASK`, i.e. `ts % c.M`), populates the record
and runs the scan. -/
def ticker_insert_full (c : tickerConfig) (ticksNow ts evId : Nat)
    (q : List ticker_event) : List ticker_event × Option Nat :=
  ticker_insert_event (adjustedRef c ticksNow) ⟨ts % c.M, evId⟩ q

/-- A sequence of `ticker_insert_event` calls starting from the empty
queue, with a fixed current-time oracle (`read()` constantly
`ticksNow`). -/
def insertAll (c : tickerConfig) (ticksNow : Nat)
    (pairs : List (Nat × Nat)) : List ticker_event :=
  pairs.foldl (fun q pr => (ticker_insert_full c ticksNow pr.1 pr.2 q).1) []

/-- Age-ordering of two event records relative to reference `act`. -/
def ageLE (M act : Nat) (a b : ticker_event) : Prop :=
  age M act a.timestamp ≤ age M act b.timestamp

/-- A hardware timer call made by the core. -/
inductive hwCall where
  | set_interrupt (ts : Nat)
  | disable_interrupt
deriving DecidableEq, Repr

/-- The drain loop of `ticker_irq_handler` (lines 33-63) on the list
model, with a fixed current-time oracle (`read()` constantly `ticksNow`)
and an explicit fuel bound on the number of loop iterations
(`Option.none` means the fuel ran out with the loop still running; the C
loop is unbounded).  `handler` is the registered dispatch callback as a
queue transformer: it receives the dispatched id and the remaining chain
and returns the new chain (per the source comment, "the handler can set
new events").  The returned list collects the dispatched ids in order;
the `hwCall` is the hardware call made on the exit path (line 36
`disable_interrupt` or line 60 `set_interrupt`). -/
def ticker_irq_handler (c : tickerConfig) (ticksNow : Nat)
    (handler : Nat → List ticker_event → List ticker_event) :
    Nat → List ticker_event → Option (List Nat × hwCall)
  | 0, _ => Option.none
  | fuel + 1, q =>
    match q with
    | [] => some ([], hwCall.disable_interrupt)
    | e :: rest =>
      if eventIsDue c ticksNow e.timestamp then
        match ticker_irq_handler c ticksNow handler fuel (handler e.id rest) with
        | Option.none => Option.none
        | some (ids, final) => some (e.id :: ids, final)
      else some ([], hwCall.set_interrupt e.timestamp)

/-- A registered callback that performs no insert or remove: the chain is
left exactly as the drain loop left it. -/
def noopHandler : Nat → List ticker_event → List ticker_event :=
  fun _ q => q

/-- A reentrant callback that re-inserts an immediately-due event (timestamp
0, via `ticker_insert_event` at reference 0) on every dispatch. -/
def reinsertHandler : Nat → List ticker_event → List ticker_event :=
  fun evId q => (ticker_insert_event 0 ⟨0, evId⟩ q).1

/-- A heap node for the pointer-level model of the chain: the fields of
`ticker_event_t`, with the `next` pointer explicit (`Option.none` is
NULL, `some a` points at address `a`). -/
structure node where
  timestamp : Nat
  id : Nat
  next : Option Nat
deriving DecidableEq, Repr

/-- Pointer-level ticker state: the caller-owned records as a heap indexed
by address, the queue head pointer, and the registered handler (an
abstract function-pointer handle; `Option.none` is NULL). -/
structure tickerState where
  heap : Nat → node
  head : Option Nat
  event_handler : Option Nat

/-- The predecessor scan of `ticker_remove_event` (lines 122-129): walk
from `p` following `next`; at the first node whose `next` equals `obj`,
rewrite that node's `next` field to `obj->next` and stop; stop at NULL.
`fuel` bounds the walk (the C loop is unbounded). -/
def ticker_remove_scan (h : Nat → node) (obj : Nat) :
    Nat → Option Nat → (Nat → node)
  | _, Option.none => h
  | 0, some _ => h
  | fuel + 1, some p =>
    if (h p).next = some obj then
      fun a => if a = p then { h p with next := (h obj).next } else h a
    else
      ticker_remove_scan h obj fuel (h p).next

/-- `ticker_remove_event` (lines 108-133) on the pointer model: if `obj`
is the head it is dropped and the hardware re-armed to the new head's
timestamp (line 118), or disabled if the queue became empty (line 116);
otherwise the predecessor scan unlinks it and no hardware call is made. -/
def ticker_remove_event (fuel : Nat) (s : tickerState) (obj : Nat) :
    tickerState × Option hwCall :=
  if s.head = some obj then
    ({ s with head := (s.heap obj).next },
      match (s.heap obj).next with
      | Option.none => some hwCall.disable_interrupt
      | some a => some (hwCall.set_interrupt ((s.heap a).timestamp)))
  else
    ({ s with heap := ticker_remove_scan s.heap obj fuel s.head }, Option.none)

/-- The head-unlink step of `ticker_irq_handler` (lines 48-49) on the
pointer model: `p = head; head = head->next`.  Only the queue head
pointer is written. -/
def irq_unlink (s : tickerState) : tickerState :=
  match s.head with
  | Option.none => s
  | some p => { s with head := (s.heap p).next }

/-- The chain reachable from a pointer, as the list of addresses it
visits: `isChain h p addrs` states that following `next` from `p` visits
exactly `addrs` and ends at NULL. -/
def isChain (h : Nat → node) : Option Nat → List Nat → Prop
  | Option.none, [] => True
  | Option.none, _ :: _ => False
  | some _, [] => False
  | some p, a :: rest => p = a ∧ isChain h (h a).next rest

/-- ## Theorems -/

lemma age_eq (M s t : Nat) (hs : s < M) (ht : t < M) :
    age M s t = if s ≤ t then t - s else t + M - s := by
  unfold age
  split_ifs with h
  · have h2 : t + M - s = (t - s) + M := by omega
    rw [h2, Nat.add_mod_right]
    exact Nat.mod_eq_of_lt (by omega)
  · exact Nat.mod_eq_of_lt (by omega)

/-- Exact characterization of the C predicate in circular-distance terms:
for in-range arguments it is the *strict* age comparison, except that when
`start = end` it accepts exactly the times at or after `start` in raw
order (the "full period" degenerate case, comment case A.2). -/
lemma timeIsInPeriod_iff (M s t e : Nat) (hs : s < M) (ht : t < M) (he : e < M) :
    ticker_timeIsInPeriod s t e = true ↔
      (age M s t < age M s e ∨ (s = e ∧ s ≤ t)) := by
  rw [age_eq M s t hs ht, age_eq M s e hs he]
  unfold ticker_timeIsInPeriod
  simp only [Bool.or_eq_true, Bool.and_eq_true, decide_eq_true_eq]
  split_ifs <;> omega

/-- On a degenerate period (`end = time`) the predicate accepts exactly
`start = time`. -/
lemma timeIsInPeriod_self (s t : Nat) :
    ticker_timeIsInPeriod s t t = decide (s = t) := by
  rw [Bool.eq_iff_iff]
  unfold ticker_timeIsInPeriod
  simp only [Bool.or_eq_true, Bool.and_eq_true, decide_eq_true_eq]
  omega

/-- Claim C1, counterexample: the predicate is not the non-strict
circular-distance comparison.  At `(start, time, end) = (0, 5, 5)` the ages
of `time` and `end` are equal (`5 ≤ 5`), so the claimed model returns
true, but the code returns false; conversely at `(0, 5, 0)` the code
returns true although `age 5 = 5 > 0 = age 0`. -/
theorem timeIsInPeriod_not_age_le :
    (ticker_timeIsInPeriod 0 5 5 = false ∧
      (5 + 2 ^ 32 - 0) % 2 ^ 32 ≤ (5 + 2 ^ 32 - 0) % 2 ^ 32) ∧
    (ticker_timeIsInPeriod 0 5 0 = true ∧
      ¬ (5 + 2 ^ 32 - 0) % 2 ^ 32 ≤ (0 + 2 ^ 32 - 0) % 2 ^ 32) := by
  refine ⟨⟨by decide, le_refl _⟩, ⟨by decide, by decide⟩⟩

/-- Claim C1 (amended): for all in-range timestamps over a `2^w` counter
space, `ticker_timeIsInPeriod start time end` returns true iff
`(time - start) mod 2^w < (end - start) mod 2^w` (strict circular
comparison), or `start = end` and `start ≤ time` in raw order. -/
theorem timeIsInPeriod_age_char (w s t e : Nat)
    (hs : s < 2 ^ w) (ht : t < 2 ^ w) (he : e < 2 ^ w) :
    ticker_timeIsInPeriod s t e = true ↔
      ((t + 2 ^ w - s) % 2 ^ w < (e + 2 ^ w - s) % 2 ^ w ∨ (s = e ∧ s ≤ t)) :=
  timeIsInPeriod_iff (2 ^ w) s t e hs ht he

/-- Witness for `timeIsInPeriod_age_char` at `w = 32`, `(s,t,e) = (2,3,4)`. -/
theorem timeIsInPeriod_age_char_witness :
    ticker_timeIsInPeriod 2 3 4 = true ↔
      ((3 + 2 ^ 32 - 2) % 2 ^ 32 < (4 + 2 ^ 32 - 2) % 2 ^ 32 ∨ (2 = 4 ∧ 2 ≤ 3)) :=
  timeIsInPeriod_age_char 32 2 3 4 (by decide) (by decide) (by decide)

/-- Claim C2, counterexample: self-inclusion fails; `is_due_before(0,1,1)`
is false although the claim asserts it is true for all `s`, `t`. -/
theorem timeIsInPeriod_self_not_total :
    ticker_timeIsInPeriod 0 1 1 = false := by
  decide

/-- Claim C2 (amended): `ticker_timeIsInPeriod s t t` returns true iff
`s = t`; self-inclusion holds exactly when the reference origin equals the
candidate/boundary timestamp. -/
theorem timeIsInPeriod_self_iff (s t : Nat) :
    ticker_timeIsInPeriod s t t = true ↔ s = t := by
  rw [timeIsInPeriod_self]
  simp

lemma ticker_insert_nil (act : Nat) (obj : ticker_event) :
    ticker_insert_event act obj [] = ([obj], some obj.timestamp) := rfl

lemma ticker_insert_cons_pos (act : Nat) (obj p : ticker_event)
    (rest : List ticker_event)
    (hP : ticker_timeIsInPeriod act obj.timestamp p.timestamp = true) :
    ticker_insert_event act obj (p :: rest) = (obj :: p :: rest, some obj.timestamp) := by
  simp [ticker_insert_event, hP]

lemma ticker_insert_cons_neg (act : Nat) (obj p : ticker_event)
    (rest : List ticker_event)
    (hP : ticker_timeIsInPeriod act obj.timestamp p.timestamp = false) :
    ticker_insert_event act obj (p :: rest) =
      (p :: (ticker_insert_event act obj rest).1, Option.none) := by
  simp [ticker_insert_event, hP]

lemma mem_ticker_insert (act : Nat) (obj : ticker_event) :
    ∀ (q : List ticker_event), ∀ x ∈ (ticker_insert_event act obj q).1,
      x = obj ∨ x ∈ q := by
  intro q
  induction q with
  | nil =>
    intro x hx
    rw [ticker_insert_nil] at hx
    rcases List.mem_singleton.mp hx with h
    exact Or.inl h
  | cons p rest ih =>
    intro x hx
    cases hP : ticker_timeIsInPeriod act obj.timestamp p.timestamp with
    | true =>
      rw [ticker_insert_cons_pos act obj p rest hP] at hx
      rcases List.mem_cons.mp hx with h | h
      · exact Or.inl h
      · exact Or.inr h
    | false =>
      rw [ticker_insert_cons_neg act obj p rest hP] at hx
      rcases List.mem_cons.mp hx with h | h
      · exact Or.inr (by simp [h])
      · rcases ih x h with h2 | h2
        · exact Or.inl h2
        · exact Or.inr (List.mem_cons_of_mem p h2)

lemma ticker_insert_sorted (M act : Nat) (obj : ticker_event)
    (ha : act < M) (ho : obj.timestamp < M) (hoa : obj.timestamp ≠ act) :
    ∀ q : List ticker_event,
      (∀ e ∈ q, e.timestamp < M ∧ e.timestamp ≠ act) →
      List.Pairwise (ageLE M act) q →
      List.Pairwise (ageLE M act) (ticker_insert_event act obj q).1 := by
  intro q
  induction q with
  | nil =>
    intro _ _
    rw [ticker_insert_nil]
    exact List.pairwise_singleton _ _
  | cons p rest ih =>
    intro hq hs
    have hp := hq p (List.mem_cons_self p rest)
    rw [List.pairwise_cons] at hs
    cases hP : ticker_timeIsInPeriod act obj.timestamp p.timestamp with
    | true =>
      have hlt : age M act obj.timestamp < age M act p.timestamp := by
        rw [timeIsInPeriod_iff M act obj.timestamp p.timestamp ha ho hp.1] at hP
        rcases hP with h | h
        · exact h
        · exact absurd h.1.symm hp.2
      rw [ticker_insert_cons_pos act obj p rest hP]
      refine List.Pairwise.cons ?_ (List.Pairwise.cons hs.1 hs.2)
      intro b hb
      rcases List.mem_cons.mp hb with h | h
      · subst h
        exact le_of_lt hlt
      · exact le_trans (le_of_lt hlt) (hs.1 b h)
    | false =>
      have hnot : ¬ (age M act obj.timestamp < age M act p.timestamp ∨
          (act = p.timestamp ∧ act ≤ obj.timestamp)) := by
        rw [← timeIsInPeriod_iff M act obj.timestamp p.timestamp ha ho hp.1]
        simp [hP]
      have hge : age M act p.timestamp ≤ age M act obj.timestamp := by
        rcases Nat.lt_or_ge (age M act obj.timestamp) (age M act p.timestamp) with h | h
        · exact absurd (Or.inl h) hnot
        · exact h
      rw [ticker_insert_cons_neg act obj p rest hP]
      refine List.Pairwise.cons ?_ (ih (fun e he => hq e (List.mem_cons_of_mem p he)) hs.2)
      intro b hb
      rcases mem_ticker_insert act obj rest b hb with h | h
      · subst h
        exact hge
      · exact hs.1 b h

lemma insertAll_fold_sorted (M act : Nat) (ha : act < M) :
    ∀ (evs q : List ticker_event),
      (∀ e ∈ evs, e.timestamp < M ∧ e.timestamp ≠ act) →
      (∀ e ∈ q, e.timestamp < M ∧ e.timestamp ≠ act) →
      List.Pairwise (ageLE M act) q →
      (∀ e ∈ evs.foldl (fun l ev => (ticker_insert_event act ev l).1) q,
        e.timestamp < M ∧ e.timestamp ≠ act) ∧
      List.Pairwise (ageLE M act)
        (evs.foldl (fun l ev => (ticker_insert_event act ev l).1) q) := by
  intro evs
  induction evs with
  | nil =>
    intro q _ hq hs
    exact ⟨hq, hs⟩
  | cons ev evs ih =>
    intro q hevs hq hs
    have hev := hevs ev (List.mem_cons_self ev evs)
    rw [List.foldl_cons]
    apply ih
    · intro e he
      exact hevs e (List.mem_cons_of_mem ev he)
    · intro e he
      rcases mem_ticker_insert act ev q e he with h | h
      · subst h
        exact hev
      · exact hq e h
    · exact ticker_insert_sorted M act ev ha hev.1 hev.2 q hq hs

lemma insertAll_eq_fold (c : tickerConfig) (ticksNow : Nat)
    (pairs : List (Nat × Nat)) :
    insertAll c ticksNow pairs =
      (pairs.map (fun pr => (⟨pr.1 % c.M, pr.2⟩ : ticker_event))).foldl
        (fun l ev => (ticker_insert_event (adjustedRef c ticksNow) ev l).1) [] := by
  unfold insertAll ticker_insert_full
  rw [List.foldl_map]

lemma pairwise_head_min (M act : Nat) (l : List ticker_event)
    (hs : List.Pairwise (ageLE M act) l) :
    ∀ h e, l.head? = some h → e ∈ l →
      age M act h.timestamp ≤ age M act e.timestamp := by
  cases l with
  | nil =>
    intro h e hh
    simp at hh
  | cons a t =>
    intro h e hh he
    have ha : a = h := by simpa using hh
    subst ha
    rcases List.mem_cons.mp he with h2 | h2
    · subst h2
      exact le_refl _
    · exact (List.pairwise_cons.mp hs).1 e h2

/-- Claim C4, counterexample: with the fixed oracle `read() = 0` (so the
adjusted reference is 0 with a zero ISR delay) and modulus 16, inserting
timestamps 3, then 0, then 7 yields the chain `[7, 0, 3]`: the entry at
timestamp 0 (age 0) is strictly due before the head at timestamp 7
(age 7), both per the code's own predicate and per circular age, so the
chain is not sorted and the head is not the soonest due event. -/
theorem insert_ordering_invariant_cex :
    insertAll ⟨16, 0, 0, 0⟩ 0 [(3, 0), (0, 1), (7, 2)] =
      [⟨7, 2⟩, ⟨0, 1⟩, ⟨3, 0⟩] ∧
    (insertAll ⟨16, 0, 0, 0⟩ 0 [(3, 0), (0, 1), (7, 2)]).head? = some ⟨7, 2⟩ ∧
    (⟨0, 1⟩ : ticker_event) ∈ insertAll ⟨16, 0, 0, 0⟩ 0 [(3, 0), (0, 1), (7, 2)] ∧
    ticker_timeIsInPeriod (adjustedRef ⟨16, 0, 0, 0⟩ 0) 0 7 = true ∧
    age 16 (adjustedRef ⟨16, 0, 0, 0⟩ 0) 0 < age 16 (adjustedRef ⟨16, 0, 0, 0⟩ 0) 7 := by
  refine ⟨by decide, by decide, by decide, by decide, by decide⟩

/-- Claim C4 (amended): for every sequence of `ticker_insert_event` calls
with a fixed current-time oracle, *provided no inserted normalized
timestamp equals the adjusted reference time* `read() - TICKER_EXPECT_ISR_DELAY`,
after each call the chain is sorted by circular age relative to that
reference (hence by the wraparound predicate), and the head is the
soonest due event; and inserting into an empty queue arms the hardware
exactly once, with the normalized timestamp. -/
theorem insert_ordering_invariant :
    (∀ (c : tickerConfig) (ticksNow : Nat) (pairs : List (Nat × Nat)) (n : Nat),
      0 < c.M →
      (∀ pr ∈ pairs, pr.1 % c.M ≠ adjustedRef c ticksNow) →
      List.Pairwise (ageLE c.M (adjustedRef c ticksNow))
        (insertAll c ticksNow (pairs.take n)) ∧
      (∀ h e, (insertAll c ticksNow (pairs.take n)).head? = some h →
        e ∈ insertAll c ticksNow (pairs.take n) →
        age c.M (adjustedRef c ticksNow) h.timestamp ≤
          age c.M (adjustedRef c ticksNow) e.timestamp)) ∧
    (∀ (c : tickerConfig) (ticksNow ts evId : Nat),
      (ticker_insert_full c ticksNow ts evId []).2 = some (ts % c.M)) := by
  constructor
  · intro c ticksNow pairs n hM hne
    have ha : adjustedRef c ticksNow < c.M := Nat.mod_lt _ hM
    have hgood : ∀ e ∈ (pairs.take n).map
        (fun pr => (⟨pr.1 % c.M, pr.2⟩ : ticker_event)),
        e.timestamp < c.M ∧ e.timestamp ≠ adjustedRef c ticksNow := by
      intro e he
      rcases List.mem_map.mp he with ⟨pr, hpr, rfl⟩
      exact ⟨Nat.mod_lt _ hM, hne pr (List.take_subset n pairs hpr)⟩
    have main := insertAll_fold_sorted c.M (adjustedRef c ticksNow) ha
      ((pairs.take n).map (fun pr => (⟨pr.1 % c.M, pr.2⟩ : ticker_event))) []
      hgood (by intro e he; cases he) List.Pairwise.nil
    rw [insertAll_eq_fold c ticksNow (pairs.take n)]
    exact ⟨main.2, pairwise_head_min c.M (adjustedRef c ticksNow) _ main.2⟩
  · intro c ticksNow ts evId
    rfl

/-- Witness for `insert_ordering_invariant`: modulus 16, oracle 5, zero
delay, inserting timestamps 7 then 9 (neither congruent to the reference
5); the resulting chain is age-sorted, and inserting timestamp 7 into an
empty queue arms the hardware at `7 % 16`. -/
theorem insert_ordering_invariant_witness :
    List.Pairwise (ageLE 16 (adjustedRef ⟨16, 0, 0, 0⟩ 5))
      (insertAll ⟨16, 0, 0, 0⟩ 5 ([(7, 0), (9, 1)].take 2)) ∧
    (ticker_insert_full ⟨16, 0, 0, 0⟩ 5 7 0 []).2 = some (7 % 16) :=
  ⟨(insert_ordering_invariant.1 ⟨16, 0, 0, 0⟩ 5 [(7, 0), (9, 1)] 2
      (by decide) (by decide)).1,
    insert_ordering_invariant.2 ⟨16, 0, 0, 0⟩ 5 7 0⟩

/-- Claim C7: `ticker_insert_event` calls `set_interrupt` (with the new
normalized timestamp) iff the new event was linked as the queue head; an
insertion anywhere else performs no hardware call. -/
theorem insert_arms_iff_head (act : Nat) (obj : ticker_event)
    (q : List ticker_event) (hq : obj ∉ q) :
    ((ticker_insert_event act obj q).2 = some obj.timestamp ↔
      (ticker_insert_event act obj q).1.head? = some obj) ∧
    ((ticker_insert_event act obj q).2 = some obj.timestamp ∨
      (ticker_insert_event act obj q).2 = Option.none) := by
  cases q with
  | nil =>
    rw [ticker_insert_nil]
    exact ⟨⟨fun _ => rfl, fun _ => rfl⟩, Or.inl rfl⟩
  | cons p rest =>
    cases hP : ticker_timeIsInPeriod act obj.timestamp p.timestamp with
    | true =>
      rw [ticker_insert_cons_pos act obj p rest hP]
      exact ⟨⟨fun _ => rfl, fun _ => rfl⟩, Or.inl rfl⟩
    | false =>
      rw [ticker_insert_cons_neg act obj p rest hP]
      have hne : p ≠ obj := fun h => hq (h ▸ List.mem_cons_self p rest)
      refine ⟨⟨fun h => Option.noConfusion h, fun h => ?_⟩, Or.inr rfl⟩
      exact absurd (Option.some.inj h) hne

/-- Witness for `insert_arms_iff_head`: inserting `⟨4, 9⟩` after the sole
entry `⟨2, 0⟩` (reference 0) makes no hardware call and does not become
head. -/
theorem insert_arms_iff_head_witness :
    ((ticker_insert_event 0 ⟨4, 9⟩ [⟨2, 0⟩]).2 =
        some ((⟨4, 9⟩ : ticker_event)).timestamp ↔
      (ticker_insert_event 0 ⟨4, 9⟩ [⟨2, 0⟩]).1.head? = some ⟨4, 9⟩) ∧
    ((ticker_insert_event 0 ⟨4, 9⟩ [⟨2, 0⟩]).2 =
        some ((⟨4, 9⟩ : ticker_event)).timestamp ∨
      (ticker_insert_event 0 ⟨4, 9⟩ [⟨2, 0⟩]).2 = Option.none) :=
  insert_arms_iff_head 0 ⟨4, 9⟩ [⟨2, 0⟩] (by decide)

lemma insert_after_equal (act : Nat) (obj : ticker_event) :
    ∀ (q : List ticker_event) (k : Nat) (hk : k < q.length),
      act ≠ obj.timestamp →
      (q.get ⟨k, hk⟩).timestamp = obj.timestamp →
      (∀ (j : Nat) (hj : j < q.length), j < k →
        ticker_timeIsInPeriod act obj.timestamp (q.get ⟨j, hj⟩).timestamp = false) →
      (ticker_insert_event act obj q).1 =
        q.take (k + 1) ++ (ticker_insert_event act obj (q.drop (k + 1))).1 := by
  intro q
  induction q with
  | nil =>
    intro k hk
    exact absurd hk (by simp)
  | cons p rest ih =>
    intro k hk hact hts hpre
    cases k with
    | zero =>
      have hp : p.timestamp = obj.timestamp := hts
      have hP : ticker_timeIsInPeriod act obj.timestamp p.timestamp = false := by
        rw [hp, timeIsInPeriod_self]
        exact decide_eq_false hact
      rw [ticker_insert_cons_neg act obj p rest hP]
      simp [List.take_succ_cons, List.drop_succ_cons]
    | succ k =>
      have h0 : (0 : Nat) < (p :: rest).length := by simp
      have hP : ticker_timeIsInPeriod act obj.timestamp p.timestamp = false :=
        hpre 0 h0 (Nat.succ_pos k)
      rw [ticker_insert_cons_neg act obj p rest hP]
      rw [List.take_succ_cons, List.drop_succ_cons, List.cons_append]
      show p :: (ticker_insert_event act obj rest).1 =
        p :: (List.take (k + 1) rest ++
          (ticker_insert_event act obj (List.drop (k + 1) rest)).1)
      rw [ih k (Nat.lt_of_succ_lt_succ hk) hact hts
        (fun j hj hjk => hpre (j + 1) (Nat.succ_lt_succ hj) (Nat.succ_lt_succ hjk))]

/-- Claim C9: for `start ≠ time` the predicate rejects the degenerate
period boundary (`ticker_timeIsInPeriod start time time = false`), so the
scan of `ticker_insert_event` never breaks at an entry whose timestamp
equals the new event's: once the scan has passed all earlier entries, the
new event is linked strictly after the equal-timestamp entry at index `k`,
keeping equal-timestamp events in insertion (FIFO) order. -/
theorem equal_timestamp_fifo :
    (∀ s t : Nat, s ≠ t → ticker_timeIsInPeriod s t t = false) ∧
    (∀ (act : Nat) (obj : ticker_event) (q : List ticker_event) (k : Nat)
      (hk : k < q.length),
      act ≠ obj.timestamp →
      (q.get ⟨k, hk⟩).timestamp = obj.timestamp →
      (∀ (j : Nat) (hj : j < q.length), j < k →
        ticker_timeIsInPeriod act obj.timestamp (q.get ⟨j, hj⟩).timestamp = false) →
      (ticker_insert_event act obj q).1 =
        q.take (k + 1) ++ (ticker_insert_event act obj (q.drop (k + 1))).1) := by
  constructor
  · intro s t h
    rw [timeIsInPeriod_self]
    exact decide_eq_false h
  · intro act obj q k hk hact hts hpre
    exact insert_after_equal act obj q k hk hact hts hpre

/-- Witness for `equal_timestamp_fifo`: `ticker_timeIsInPeriod 0 5 5` is
false, and inserting a second event with timestamp 7 (reference 0) into
the queue `[⟨7, 0⟩]` links it after the existing equal-timestamp entry. -/
theorem equal_timestamp_fifo_witness :
    ticker_timeIsInPeriod 0 5 5 = false ∧
    (ticker_insert_event 0 ⟨7, 1⟩ [⟨7, 0⟩]).1 =
      [⟨7, 0⟩].take 1 ++ (ticker_insert_event 0 ⟨7, 1⟩ ([⟨7, 0⟩].drop 1)).1 :=
  ⟨equal_timestamp_fifo.1 0 5 (by decide),
    equal_timestamp_fifo.2 0 ⟨7, 1⟩ [⟨7, 0⟩] 0 (by decide) (by decide) (by decide)
      (fun j hj hjk => absurd hjk (Nat.not_lt_zero j))⟩

lemma irq_noop_spec (c : tickerConfig) (ticksNow : Nat) :
    ∀ (q : List ticker_event) (fuel : Nat), q.length < fuel →
      ticker_irq_handler c ticksNow noopHandler fuel q =
        some
          ((q.takeWhile (fun e => eventIsDue c ticksNow e.timestamp)).map
            ticker_event.id,
          match q.dropWhile (fun e => eventIsDue c ticksNow e.timestamp) with
          | [] => hwCall.disable_interrupt
          | e :: _ => hwCall.set_interrupt e.timestamp) := by
  intro q
  induction q with
  | nil =>
    intro fuel hf
    cases fuel with
    | zero => exact absurd hf (by simp)
    | succ n => rfl
  | cons e rest ih =>
    intro fuel hf
    cases fuel with
    | zero => exact absurd hf (by omega)
    | succ n =>
      have hlen : rest.length < n := by
        simpa using hf
      cases hd : eventIsDue c ticksNow e.timestamp with
      | true =>
        have hrec := ih n hlen
        simp only [ticker_irq_handler, hd, if_true, noopHandler]
        rw [hrec]
        simp [List.takeWhile, List.dropWhile, hd]
      | false =>
        simp only [ticker_irq_handler, hd]
        simp [List.takeWhile, List.dropWhile, hd]

/-- Claim C3: with a registered callback that performs no insert or
remove, draining a queue of `N` events with distinct timestamps, all due
at and not after the current hardware time, invokes the callback exactly
`N` times, once per event id, in queue order (ascending timestamp order
by the sortedness hypothesis), then disables the interrupt and returns;
no event is dispatched more than once (the dispatched-id list is exactly
`q.map id`, duplicate-free). -/
theorem irq_dispatch_exactly_once (c : tickerConfig) (ticksNow : Nat)
    (q : List ticker_event)
    (hle : ∀ e ∈ q, e.timestamp ≤ ticksNow)
    (hdue : ∀ e ∈ q, eventIsDue c ticksNow e.timestamp = true)
    (hsorted : List.Pairwise (fun a b => a.timestamp < b.timestamp) q)
    (hids : (q.map ticker_event.id).Nodup) :
    ticker_irq_handler c ticksNow noopHandler (q.length + 1) q =
      some (q.map ticker_event.id, hwCall.disable_interrupt) ∧
    (q.map ticker_event.id).length = q.length := by
  have h1 := irq_noop_spec c ticksNow q (q.length + 1) (by omega)
  have ht : q.takeWhile (fun e => eventIsDue c ticksNow e.timestamp) = q := by
    rw [List.takeWhile_eq_self_iff]
    intro e he
    simpa using hdue e he
  have hdnil : q.dropWhile (fun e => eventIsDue c ticksNow e.timestamp) = [] := by
    rw [List.dropWhile_eq_nil_iff]
    intro e he
    simpa using hdue e he
  rw [ht, hdnil] at h1
  exact ⟨h1, List.length_map q ticker_event.id⟩

/-- Witness for `irq_dispatch_exactly_once`: two due events `⟨3, 0⟩` and
`⟨5, 1⟩` at time 5 (modulus 16, zero future tolerance, past tolerance 8)
are both dispatched, in order, and the interrupt is disabled. -/
theorem irq_dispatch_exactly_once_witness :
    ticker_irq_handler ⟨16, 0, 8, 0⟩ 5 noopHandler 3 [⟨3, 0⟩, ⟨5, 1⟩] =
      some ([0, 1], hwCall.disable_interrupt) ∧
    (([⟨3, 0⟩, ⟨5, 1⟩] : List ticker_event).map ticker_event.id).length = 2 :=
  irq_dispatch_exactly_once ⟨16, 0, 8, 0⟩ 5 [⟨3, 0⟩, ⟨5, 1⟩]
    (by decide) (by decide) (by decide) (by decide)

lemma irq_reinsert_diverges :
    ∀ fuel, ticker_irq_handler ⟨16, 0, 0, 0⟩ 0 reinsertHandler fuel
      [⟨0, 0⟩] = Option.none := by
  intro fuel
  induction fuel with
  | zero => rfl
  | succ n ih =>
    have hd : eventIsDue ⟨16, 0, 0, 0⟩ 0
        ((⟨0, 0⟩ : ticker_event)).timestamp = true := by decide
    simp only [ticker_irq_handler, hd, if_true]
    have hq : reinsertHandler ((⟨0, 0⟩ : ticker_event)).id
        ([] : List ticker_event) = [⟨0, 0⟩] := rfl
    rw [hq, ih]

/-- Claim C8, counterexample: termination does not hold for every
registered callback.  With the reentrant callback that re-inserts an
immediately-due event on every dispatch, the drain loop on the singleton
queue `[⟨0, 0⟩]` (time 0) never reaches an exit path: no iteration bound
makes it return. -/
theorem irq_drain_nonterminating_cex :
    ¬ ∃ fuel r, ticker_irq_handler ⟨16, 0, 0, 0⟩ 0 reinsertHandler fuel
      [⟨0, 0⟩] = some r := by
  rintro ⟨fuel, r, h⟩
  rw [irq_reinsert_diverges fuel] at h
  exact Option.noConfusion h

/-- Claim C8 (amended): provided the registered callback performs no
insert or remove, the drain loop terminates within `|q| + 1` iterations
for every finite queue: it dispatches (unlinking one head per iteration)
exactly the maximal due prefix, then either disables arming (queue
exhausted) or arms the hardware at the first non-due head's timestamp and
returns. -/
theorem irq_drain_terminates (c : tickerConfig) (ticksNow : Nat)
    (q : List ticker_event) (fuel : Nat) (hf : q.length < fuel) :
    ticker_irq_handler c ticksNow noopHandler fuel q =
      some
        ((q.takeWhile (fun e => eventIsDue c ticksNow e.timestamp)).map
          ticker_event.id,
        match q.dropWhile (fun e => eventIsDue c ticksNow e.timestamp) with
        | [] => hwCall.disable_interrupt
        | e :: _ => hwCall.set_interrupt e.timestamp) :=
  irq_noop_spec c ticksNow q fuel hf

/-- Witness for `irq_drain_terminates`: at time 5 the due event `⟨5, 0⟩`
is dispatched and the not-yet-due `⟨9, 1⟩` re-arms the hardware. -/
theorem irq_drain_terminates_witness :
    ticker_irq_handler ⟨16, 0, 8, 0⟩ 5 noopHandler 3 [⟨5, 0⟩, ⟨9, 1⟩] =
      some ([0], hwCall.set_interrupt 9) :=
  irq_drain_terminates ⟨16, 0, 8, 0⟩ 5 [⟨5, 0⟩, ⟨9, 1⟩] 3 (by decide)

lemma remove_scan_frame (h : Nat → node) (obj : Nat) :
    ∀ (fuel : Nat) (p : Option Nat) (a : Nat),
      ticker_remove_scan h obj fuel p a = h a ∨
      ticker_remove_scan h obj fuel p a = { h a with next := (h obj).next } := by
  intro fuel
  induction fuel with
  | zero =>
    intro p a
    cases p with
    | none => exact Or.inl rfl
    | some p0 => exact Or.inl rfl
  | succ n ih =>
    intro p a
    cases p with
    | none => exact Or.inl rfl
    | some p0 =>
      by_cases hn : (h p0).next = some obj
      · by_cases hap : a = p0
        · subst hap
          simp [ticker_remove_scan, hn]
        · simp [ticker_remove_scan, hn, hap]
      · simp only [ticker_remove_scan, hn]
        exact ih (h p0).next a

lemma remove_scan_preserves_obj (h : Nat → node) (obj : Nat)
    (fuel : Nat) (p : Option Nat) :
    ticker_remove_scan h obj fuel p obj = h obj := by
  rcases remove_scan_frame h obj fuel p obj with h2 | h2
  · exact h2
  · exact h2

/-- Claim C10: unlinking writes nothing into the removed record.  For
`ticker_remove_event`, the removed record's own fields (`next` included)
are left exactly as they were, and every heap cell is either untouched or
has only its `next` link redirected to the removed record's successor
(the predecessor rewrite of line 125); the head-unlink step of
`ticker_irq_handler` (lines 48-49) writes no heap cell at all. -/
theorem unlink_frame :
    (∀ (fuel : Nat) (s : tickerState) (obj : Nat),
      ((ticker_remove_event fuel s obj).1).heap obj = s.heap obj ∧
      (∀ a, ((ticker_remove_event fuel s obj).1).heap a = s.heap a ∨
        ((ticker_remove_event fuel s obj).1).heap a =
          { s.heap a with next := (s.heap obj).next })) ∧
    (∀ s : tickerState, (irq_unlink s).heap = s.heap) := by
  constructor
  · intro fuel s obj
    unfold ticker_remove_event
    by_cases hh : s.head = some obj
    · rw [if_pos hh]
      exact ⟨rfl, fun a => Or.inl rfl⟩
    · rw [if_neg hh]
      exact ⟨remove_scan_preserves_obj s.heap obj fuel s.head,
        fun a => remove_scan_frame s.heap obj fuel s.head a⟩
  · intro s
    unfold irq_unlink
    cases s.head with
    | none => rfl
    | some p => rfl

lemma remove_scan_not_linked (h : Nat → node) (obj : Nat) :
    ∀ (addrs : List Nat) (p : Option Nat) (fuel : Nat),
      isChain h p addrs → obj ∉ addrs → addrs.length ≤ fuel →
      ticker_remove_scan h obj fuel p = h := by
  intro addrs
  induction addrs with
  | nil =>
    intro p fuel hc _ _
    cases p with
    | none =>
      cases fuel with
      | zero => rfl
      | succ n => rfl
    | some p0 => exact absurd hc (by simp [isChain])
  | cons a rest ih =>
    intro p fuel hc hmem hlen
    cases p with
    | none => exact absurd hc (by simp [isChain])
    | some p0 =>
      have hc2 : p0 = a ∧ isChain h (h a).next rest := hc
      obtain ⟨rfl, hc3⟩ := hc2
      cases fuel with
      | zero => exact absurd hlen (by simp)
      | succ n =>
        have hn : (h p0).next ≠ some obj := by
          intro hnext
          rw [hnext] at hc3
          cases rest with
          | nil => exact hc3
          | cons b rest2 =>
            have hb : obj = b ∧ isChain h (h b).next rest2 := hc3
            exact hmem (by simp [hb.1])
        simp only [ticker_remove_scan, hn, if_neg]
        exact ih (h p0).next n hc3
          (fun hm => hmem (List.mem_cons_of_mem p0 hm)) (by simpa using hlen)

/-- Claim C6: removing a record that is not linked in the queue is a
complete no-op: the heap (all records and links), the head pointer, the
registered handler, and the hardware arming are unchanged, and no error
is signalled. -/
theorem remove_not_linked_noop (fuel : Nat) (s : tickerState) (obj : Nat)
    (addrs : List Nat) (hc : isChain s.heap s.head addrs) (hmem : obj ∉ addrs)
    (hfuel : addrs.length ≤ fuel) :
    ticker_remove_event fuel s obj = (s, Option.none) := by
  have hhead : s.head ≠ some obj := by
    intro hh
    rw [hh] at hc
    cases addrs with
    | nil => exact hc
    | cons a rest =>
      have ha : obj = a ∧ isChain s.heap (s.heap a).next rest := hc
      exact hmem (by simp [ha.1])
  unfold ticker_remove_event
  rw [if_neg hhead]
  rw [remove_scan_not_linked s.heap obj addrs s.head fuel hc hmem hfuel]

/-- Witness for `remove_not_linked_noop`: removing address 5 from an
empty queue over a constant heap changes nothing and makes no hardware
call. -/
theorem remove_not_linked_noop_witness :
    ticker_remove_event 0
      ⟨fun _ => ⟨0, 0, Option.none⟩, Option.none, Option.none⟩ 5 =
      (⟨fun _ => ⟨0, 0, Option.none⟩, Option.none, Option.none⟩, Option.none) :=
  remove_not_linked_noop 0
    ⟨fun _ => ⟨0, 0, Option.none⟩, Option.none, Option.none⟩ 5 []
    trivial (by simp) (by simp)

/-- Claim C5: `ticker_remove_event` on the head re-arms the hardware to
the new head's timestamp, or disables arming if the queue became empty;
removing when `obj` is not the head performs no hardware call at all. -/
theorem remove_rearm_policy (fuel : Nat) (s : tickerState) (obj a : Nat) :
    (s.head = some obj → (s.heap obj).next = some a →
      (ticker_remove_event fuel s obj).2 =
        some (hwCall.set_interrupt ((s.heap a).timestamp))) ∧
    (s.head = some obj → (s.heap obj).next = Option.none →
      (ticker_remove_event fuel s obj).2 = some hwCall.disable_interrupt) ∧
    (s.head ≠ some obj → (ticker_remove_event fuel s obj).2 = Option.none) := by
  refine ⟨?_, ?_, ?_⟩
  · intro h1 h2
    unfold ticker_remove_event
    rw [if_pos h1, h2]
  · intro h1 h2
    unfold ticker_remove_event
    rw [if_pos h1, h2]
  · intro h1
    unfold ticker_remove_event
    rw [if_neg h1]

/-- Witness for `remove_rearm_policy`: removing the head (address 1,
successor at address 2 with timestamp 10) re-arms at 10; removing the
head of a singleton queue disables; removing a non-head address makes no
call. -/
theorem remove_rearm_policy_witness :
    (ticker_remove_event 1
        ⟨fun _ => ⟨10, 0, some 2⟩, some 1, Option.none⟩ 1).2 =
      some (hwCall.set_interrupt 10) ∧
    (ticker_remove_event 1
        ⟨fun _ => ⟨10, 0, Option.none⟩, some 1, Option.none⟩ 1).2 =
      some hwCall.disable_interrupt ∧
    (ticker_remove_event 1
        ⟨fun _ => ⟨10, 0, Option.none⟩, Option.none, Option.none⟩ 5).2 =
      Option.none :=
  ⟨(remove_rearm_policy 1 ⟨fun _ => ⟨10, 0, some 2⟩, some 1, Option.none⟩ 1 2).1
      rfl rfl,
    (remove_rearm_policy 1
        ⟨fun _ => ⟨10, 0, Option.none⟩, some 1, Option.none⟩ 1 0).2.1 rfl rfl,
    (remove_rearm_policy 1
        ⟨fun _ => ⟨10, 0, Option.none⟩, Option.none, Option.none⟩ 5 0).2.2
      (by simp)⟩

end TickerApi
